import Mathlib

/-!
Verification development for the parkwalk-aes-handshake core
(`parkwalk-core`): the challenge codec (`createChallenge` /
`decodeTimestamp`), the strict non-negative-integer parser from
`utils.ts`, and the park state machine (`putChallenge` / `putSolution`).

Strings are embedded as `List Char`, binary buffers as `List Nat`
(byte values), and the fallible TS casts as `Except` / `Option`.
The AES-128-CBC block primitive is an external collaborator of the
repository (spec section 6), so it is kept abstract: the development is
parametrised over an encryption map `E` and a decryption map `D` on
16-byte blocks, with the collaborator contract packaged in `CipherOK`.
The CBC chaining, PKCS#7 padding, hex codec, and all validation logic
are embedded concretely from the source.
-/

/-- JS `Buffer.from(array)` coerces every numeric entry to one byte,
wrapping modulo 256 (negative values wrap into the high range). -/
def toByte (n : Int) : Nat := (n % 256).toNat

/-- Modelled from the spec: the injected pure-rand generator contract
`next(state) -> (value, nextState)` (spec section 6).  The concrete
xoroshiro128plus implementation is out of scope, so a generator state is
an arbitrary deterministic value stream together with a position. -/
structure RandomGenerator where
  seq : Nat → Int
  pos : Nat

/-- One generator step: return the current value and the advanced state. -/
def RandomGenerator.next (g : RandomGenerator) : Int × RandomGenerator :=
  (g.seq g.pos, ⟨g.seq, g.pos + 1⟩)

/-- `randN` from the source: draw `n` values, threading the generator
state through each draw in order. -/
def randN : Nat → RandomGenerator → List Int × RandomGenerator
  | 0, g => ([], g)
  | n + 1, g =>
    let p := g.next
    let r := randN n p.2
    (p.1 :: r.1, r.2)

/-- Lowercase hex digit for a value below 16 (`Buffer.toString('hex')`
and `cipher.update(..., 'hex')` emit lowercase). -/
def hexDigit (d : Nat) : Char :=
  if d < 10 then Char.ofNat (48 + d) else Char.ofNat (87 + d)

/-- Two lowercase hex characters of one byte. -/
def hexEncodeByte (b : Nat) : List Char := [hexDigit (b / 16), hexDigit (b % 16)]

/-- Hex encoding of a byte buffer (`Buffer.toString('hex')`). -/
def hexEncode (bs : List Nat) : List Char := (bs.map hexEncodeByte).flatten

/-- Value of one hex character; hex input accepts both cases. -/
def hexDigitVal (c : Char) : Option Nat :=
  if 48 ≤ c.toNat ∧ c.toNat ≤ 57 then some (c.toNat - 48)
  else if 97 ≤ c.toNat ∧ c.toNat ≤ 102 then some (c.toNat - 87)
  else if 65 ≤ c.toNat ∧ c.toNat ≤ 70 then some (c.toNat - 55)
  else none

/-- Modelled from the spec: hex decoding of a string into bytes, failing
on odd length or a non-hex character ("hex decoding fails" is a listed
failure condition; the Node `Buffer.from(s, 'hex')` primitive itself is
an external collaborator). -/
def hexDecode : List Char → Option (List Nat)
  | [] => some []
  | [_] => none
  | c1 :: c2 :: rest =>
    match hexDigitVal c1, hexDigitVal c2, hexDecode rest with
    | some hi, some lo, some bs => some ((16 * hi + lo) :: bs)
    | _, _, _ => none

/-- A buffer whose entries are genuine byte values. -/
def isBytes (l : List Nat) : Prop := ∀ x ∈ l, x < 256

/-- Pointwise xor of two byte buffers (CBC chaining). -/
def xorBytes (a b : List Nat) : List Nat := List.zipWith Nat.xor a b

/-- Fuelled 16-byte block splitter (the fuel keeps it structurally
recursive; `chunks` supplies enough fuel for the whole list). -/
def chunksGo : Nat → List Nat → List (List Nat)
  | 0, _ => []
  | _ + 1, [] => []
  | fuel + 1, a :: l => ((a :: l).take 16) :: chunksGo fuel ((a :: l).drop 16)

/-- Split a buffer into 16-byte blocks. -/
def chunks (l : List Nat) : List (List Nat) := chunksGo l.length l

/-- Modelled from the spec: standard PKCS#7 padding to a 16-byte block
boundary (spec section 6 cipher collaborator contract). -/
def pkcs7pad (l : List Nat) : List Nat :=
  let p := 16 - l.length % 16
  l ++ List.replicate p p

/-- Modelled from the spec: PKCS#7 unpadding, failing on an invalid
padding byte (the "bad decrypt" error of the cipher collaborator). -/
def pkcs7unpad (l : List Nat) : Option (List Nat) :=
  match l.getLast? with
  | none => none
  | some p =>
    if 1 ≤ p ∧ p ≤ 16 ∧ p ≤ l.length ∧ ∀ x ∈ l.drop (l.length - p), x = p
    then some (l.take (l.length - p)) else none

/-- CBC encryption of a list of plaintext blocks: each block is xored
with the previous ciphertext block (initially the IV) and then passed
through the block cipher `Ek`. -/
def cbcEncBlocks (Ek : List Nat → List Nat) : List Nat → List (List Nat) → List (List Nat)
  | _, [] => []
  | prev, b :: bs =>
    let c := Ek (xorBytes b prev)
    c :: cbcEncBlocks Ek c bs

/-- CBC decryption of a list of ciphertext blocks. -/
def cbcDecBlocks (Dk : List Nat → List Nat) : List Nat → List (List Nat) → List (List Nat)
  | _, [] => []
  | prev, c :: cs => xorBytes (Dk c) prev :: cbcDecBlocks Dk c cs

/-- Modelled from the spec: `crypto.createCipheriv('aes-128-cbc', key, iv)`
followed by `update`/`final` — key and IV must be exactly 16 bytes, the
plaintext is PKCS#7-padded and CBC-encrypted with block cipher `E`. -/
def aesEncrypt (E : List Nat → List Nat → List Nat) (key iv pt : List Nat) :
    Option (List Nat) :=
  if key.length = 16 ∧ iv.length = 16 then
    some (cbcEncBlocks (E key) iv (chunks (pkcs7pad pt))).flatten
  else none

/-- Modelled from the spec: `crypto.createDecipheriv('aes-128-cbc', key, iv)`
followed by `update`/`final` — key and IV must be exactly 16 bytes, the
ciphertext a nonempty multiple of the block size, and the PKCS#7 padding
of the CBC-decrypted buffer must be valid. -/
def aesDecrypt (D : List Nat → List Nat → List Nat) (key iv ct : List Nat) :
    Option (List Nat) :=
  if key.length = 16 ∧ iv.length = 16 ∧ ct.length % 16 = 0 then
    pkcs7unpad (cbcDecBlocks (D key) iv (chunks ct)).flatten
  else none

/-- Modelled from the spec: the cipher collaborator contract of spec
section 6 — on 16-byte keys and blocks of byte values, `E` produces a
16-byte block of byte values and `D` inverts it. -/
structure CipherOK (E D : List Nat → List Nat → List Nat) : Prop where
  len : ∀ k b, k.length = 16 → b.length = 16 → isBytes k → isBytes b →
    (E k b).length = 16
  bytes : ∀ k b, k.length = 16 → b.length = 16 → isBytes k → isBytes b →
    isBytes (E k b)
  dec : ∀ k b, k.length = 16 → b.length = 16 → isBytes k → isBytes b →
    D k (E k b) = b

/-- ASCII character of a decimal digit. -/
def digitChar (d : Nat) : Char := Char.ofNat (48 + d)

/-- Fuelled most-significant-first decimal printer. -/
def natToCharsGo : Nat → Nat → List Char → List Char
  | 0, _, acc => acc
  | _ + 1, 0, acc => acc
  | fuel + 1, n, acc => natToCharsGo fuel (n / 10) (digitChar (n % 10) :: acc)

/-- Exact canonical decimal string of a non-negative integer.  This agrees
with JS `Number.prototype.toString(10)` on the exactly representable range
(integers below 2^53, which contains every timestamp the reference flow
produces); real JS rounds above 2^53 and switches to exponential notation
at 10^21, never emitting a decimal integer string longer than 22
characters, so statements that depend on the printed length must restrict
themselves to lengths the program can produce. -/
def natToChars (n : Nat) : List Char :=
  if n = 0 then ['0'] else natToCharsGo n n []

/-- Value of a nonempty string of decimal digit characters. -/
def charsToNat (s : List Char) : Nat :=
  s.foldl (fun a c => 10 * a + (c.toNat - 48)) 0

/-- JS `(-n).toString(10)`: canonical decimal string of an integer. -/
def intToChars (n : Int) : List Char :=
  if n < 0 then '-' :: natToChars (-n).toNat else natToChars n.toNat

/-- Decimal digit test (ASCII 48..57). -/
def isDigitChar (c : Char) : Bool := 48 ≤ c.toNat && c.toNat ≤ 57

/-- Whitespace skipped by JS `parseInt` (space, tab, newline, carriage
return; the exact whitespace set is immaterial because the canonical
re-serialization check rejects any input with leading whitespace). -/
def isWs (c : Char) : Bool :=
  c.toNat = 32 || c.toNat = 9 || c.toNat = 10 || c.toNat = 13

/-- Value of the longest digit run at the front of the string;
`none` when there is no leading digit (`parseInt` returns `NaN`). -/
def digitsVal (s : List Char) : Option Nat :=
  let ds := s.takeWhile isDigitChar
  if ds.isEmpty then none else some (charsToNat ds)

/-- Modelled from the spec: JS `parseInt(s, 10)` — skip leading
whitespace, read an optional sign, then the longest run of decimal
digits; `NaN` (here `none`) when no digit follows.  Float rounding of
integers beyond 2^53 is out of scope; every string this development
parses stays far below that. -/
def jsParseInt (s : List Char) : Option Int :=
  let s1 := s.dropWhile isWs
  match s1 with
  | [] => none
  | c :: rest =>
    if c = '-' then (digitsVal rest).map (fun n => -(n : Int))
    else if c = '+' then (digitsVal rest).map (fun n => (n : Int))
    else (digitsVal (c :: rest)).map (fun n => (n : Int))

/-- `parseNonNegativeInteger` from `utils.ts`: `parseInt` the string,
fail on `NaN`, fail unless the canonical re-serialization equals the
input, then apply `castNonNegativeInteger` (fails on a negative value). -/
def parseNonNegativeInteger (s : List Char) : Except String Nat :=
  match jsParseInt s with
  | none => .error "parseNonNegativeInteger: not a number"
  | some n =>
    if intToChars n = s then
      if 0 ≤ n then .ok n.toNat
      else .error "panic! wrong non negative integer"
    else .error "parseNonNegativeInteger: not a valid number"

/-- UTF-8 bytes of a string; the strings encrypted by this codec are
decimal digit strings, which are pure ASCII. -/
def strToBytes (s : List Char) : List Nat := s.map Char.toNat

/-- String of a decrypted byte buffer (`decipher.update(..., 'utf8')`).
A byte-per-character reading; it agrees with real UTF-8 decoding on the
only question the parser asks (whether every character is a decimal
digit), since multi-byte UTF-8 sequences never decode to ASCII digits. -/
def bytesToChars (bs : List Nat) : List Char := bs.map Char.ofNat

/-- JS `String.prototype.split(':')`. -/
def splitOnColon : List Char → List (List Char)
  | [] => [[]]
  | c :: rest =>
    if c = ':' then [] :: splitOnColon rest
    else
      match splitOnColon rest with
      | h :: t => (c :: h) :: t
      | [] => [[c]]

/-- The challenge record returned by `createChallenge`:
the colon-joined encoded timestamp and the raw 16-byte key. -/
structure ChallengeResult where
  encodedTimestamp : List Char
  secretKey : List Nat
deriving DecidableEq

/-- `createChallenge` from the source: draw 16 bytes for the key and 16
for the IV, AES-128-CBC-encrypt the decimal timestamp string, hex-encode
ciphertext and IV, validate each against its fixed-length codec
(`castEncodedTimestampEncryptedPart`, `castIV`: nonempty and exactly 32
characters), and join with `:`.  A failed cast throws, embedded as
`Except.error`. -/
def createChallenge (E : List Nat → List Nat → List Nat) (timestamp : Nat)
    (rng : RandomGenerator) : Except String (ChallengeResult × RandomGenerator) :=
  let r1 := randN 16 rng
  let secretKey := r1.1.map toByte
  let r2 := randN 16 r1.2
  let iv := r2.1.map toByte
  match aesEncrypt E secretKey iv (strToBytes (natToChars timestamp)) with
  | none => .error "createCipheriv"
  | some ct =>
    let encoded := hexEncode ct
    if encoded ≠ [] ∧ encoded.length = 32 then
      let ivHex := hexEncode iv
      if ivHex ≠ [] ∧ ivHex.length = 32 then
        .ok (⟨encoded ++ ':' :: ivHex, secretKey⟩, r2.2)
      else .error "castIV"
    else .error "castEncodedTimestampEncryptedPart"

/-- `decodeTimestamp` from the source: destructure the first two parts
of the colon-split (parts beyond the second are discarded by the JS
array destructuring; a missing second part throws), hex-decode the IV
half, decrypt the hex ciphertext half, and run the strict parser on the
decoded string. -/
def decodeTimestamp (D : List Nat → List Nat → List Nat)
    (encodedTimestamp : List Char) (secretKey : List Nat) : Except String Nat :=
  match splitOnColon encodedTimestamp with
  | e :: ivHex :: _ =>
    match hexDecode ivHex with
    | none => .error "invalid iv hex"
    | some iv =>
      match hexDecode e with
      | none => .error "invalid ciphertext hex"
      | some ct =>
        match aesDecrypt D secretKey iv ct with
        | none => .error "bad decrypt"
        | some pt => parseNonNegativeInteger (bytesToChars pt)
  | _ => .error "missing iv part"

/-- The `EmptyPark` variant (no fields beyond its tag). -/
structure EmptyPark where
deriving DecidableEq

/-- The singleton `EmptyPark` value from the source. -/
def emptyPark : EmptyPark := {}

/-- The `ParkWithChallenge` variant: carries the encoded timestamp. -/
structure ParkWithChallenge where
  encodedTimestamp : List Char
deriving DecidableEq

/-- The `SolvedPark` variant: carries the encoded timestamp, the hex
secret key, and the claimed timestamp (a plain JS number). -/
structure SolvedPark where
  encodedTimestamp : List Char
  secretKey : List Char
  timestamp : Int
deriving DecidableEq

/-- `putChallenge` from the source: only callable on `EmptyPark` (the
parameter type enforces the precondition), spreads the empty record and
sets the supplied encoded timestamp. -/
def putChallenge (encodedTimestamp : List Char) (_park : EmptyPark) :
    ParkWithChallenge := ⟨encodedTimestamp⟩

/-- `putSolution` from the source ("not checked, careful"): only
callable on `ParkWithChallenge`, carries its encoded timestamp forward
and stores the supplied timestamp and secret key verbatim, with no
validation against the encoded form. -/
def putSolution (timestamp : Int) (secretKey : List Char)
    (park : ParkWithChallenge) : SolvedPark :=
  ⟨park.encodedTimestamp, secretKey, timestamp⟩

/-- Concrete 16-byte block cipher used to instantiate the abstract
collaborator in witnesses: xor with the key, its own inverse. -/
def xorCipher (k b : List Nat) : List Nat := List.zipWith Nat.xor b k

/-- Concrete generator state for witnesses: the stream 0, 1, 2, .... -/
def g0 : RandomGenerator := ⟨fun i => (i : Int), 0⟩

/-! ### Basic lemmas: bytes, generator draws, xor, hex codec -/

lemma toByte_lt (n : Int) : toByte n < 256 := by
  unfold toByte
  have h1 : 0 ≤ n % 256 := Int.emod_nonneg n (by norm_num)
  have h2 : n % 256 < 256 := Int.emod_lt_of_pos n (by norm_num)
  omega

lemma randN_length (n : Nat) (g : RandomGenerator) : (randN n g).1.length = n := by
  induction n generalizing g with
  | zero => rfl
  | succ k ih => simp [randN, ih]

lemma xorBytes_length (a b : List Nat) :
    (xorBytes a b).length = min a.length b.length :=
  List.length_zipWith _ a b

lemma xorBytes_cancel : ∀ a b : List Nat, a.length = b.length →
    xorBytes (xorBytes a b) b = a := by
  intro a
  induction a with
  | nil => intro b _; cases b <;> rfl
  | cons x xs ih =>
    intro b hb
    cases b with
    | nil => simp at hb
    | cons y ys =>
      simp only [xorBytes, List.zipWith_cons_cons, List.cons.injEq]
      exact ⟨Nat.xor_cancel_right y x, ih ys (by simpa using hb)⟩

lemma xorBytes_bytes {a b : List Nat} (ha : isBytes a) (hb : isBytes b) :
    isBytes (xorBytes a b) := by
  induction a generalizing b with
  | nil => intro x hx; simp [xorBytes] at hx
  | cons x xs ih =>
    cases b with
    | nil => intro y hy; simp [xorBytes] at hy
    | cons y ys =>
      intro z hz
      simp only [xorBytes, List.zipWith_cons_cons, List.mem_cons] at hz
      rcases hz with rfl | hz
      · have hx : x < 2 ^ 8 := ha x (by simp)
        have hy : y < 2 ^ 8 := hb y (by simp)
        exact Nat.xor_lt_two_pow hx hy
      · exact ih (fun u hu => ha u (by simp [hu]))
          (fun u hu => hb u (by simp [hu])) z hz

lemma hexDigitVal_hexDigit {d : Nat} (h : d < 16) :
    hexDigitVal (hexDigit d) = some d := by
  interval_cases d <;> decide

lemma hexEncode_nil : hexEncode [] = [] := rfl

lemma hexEncode_cons (b : Nat) (bs : List Nat) :
    hexEncode (b :: bs) = hexDigit (b / 16) :: hexDigit (b % 16) :: hexEncode bs := rfl

lemma hexEncode_length (bs : List Nat) : (hexEncode bs).length = 2 * bs.length := by
  induction bs with
  | nil => rfl
  | cons b bs ih => simp [hexEncode_cons, ih]; ring

lemma hexDecode_hexEncode {bs : List Nat} (h : isBytes bs) :
    hexDecode (hexEncode bs) = some bs := by
  induction bs with
  | nil => rfl
  | cons b bs ih =>
    have hb : b < 256 := h b (by simp)
    have hdiv : b / 16 < 16 := by omega
    have hmod : b % 16 < 16 := Nat.mod_lt _ (by norm_num)
    rw [hexEncode_cons]
    show hexDecode (hexDigit (b / 16) :: hexDigit (b % 16) :: hexEncode bs) = _
    rw [hexDecode, hexDigitVal_hexDigit hdiv, hexDigitVal_hexDigit hmod,
      ih (fun u hu => h u (by simp [hu]))]
    simp [Nat.div_add_mod]

lemma hexDecode_length : ∀ {bs : List Nat} {s : List Char},
    hexDecode s = some bs → s.length = 2 * bs.length := by
  intro bs
  induction bs with
  | nil =>
    intro s h
    match s with
    | [] => rfl
    | [c] => simp [hexDecode] at h
    | c1 :: c2 :: rest =>
      rw [hexDecode] at h
      rcases h1 : hexDigitVal c1 with _ | v1 <;>
        rcases h2 : hexDigitVal c2 with _ | v2 <;>
        rcases h3 : hexDecode rest with _ | bs' <;>
        rw [h1, h2, h3] at h <;> simp at h
  | cons b bs ih =>
    intro s h
    match s with
    | [] => simp [hexDecode] at h
    | [c] => simp [hexDecode] at h
    | c1 :: c2 :: rest =>
      rw [hexDecode] at h
      rcases h1 : hexDigitVal c1 with _ | v1 <;> rw [h1] at h
      · simp at h
      rcases h2 : hexDigitVal c2 with _ | v2 <;> rw [h2] at h
      · simp at h
      rcases h3 : hexDecode rest with _ | bs' <;> rw [h3] at h
      · simp at h
      simp only [Option.some.injEq, List.cons.injEq] at h
      have hbs : bs' = bs := h.2
      subst hbs
      have hlen := ih h3
      simp [hlen]
      ring

/-- Every character of a hex encoding of bytes is a lowercase hex digit. -/
def isLowerHexChar (c : Char) : Prop :=
  (48 ≤ c.toNat ∧ c.toNat ≤ 57) ∨ (97 ≤ c.toNat ∧ c.toNat ≤ 102)

lemma hexDigit_lowerHex {d : Nat} (h : d < 16) : isLowerHexChar (hexDigit d) := by
  interval_cases d <;> first
    | exact Or.inl (by decide)
    | exact Or.inr (by decide)

lemma lowerHex_ne_colon {c : Char} (h : isLowerHexChar c) : c ≠ ':' := by
  intro hc
  subst hc
  rcases h with ⟨h1, h2⟩ | ⟨h1, h2⟩ <;> revert h1 h2 <;> decide

lemma mem_hexEncode {bs : List Nat} (h : isBytes bs) :
    ∀ c ∈ hexEncode bs, isLowerHexChar c := by
  induction bs with
  | nil => intro c hc; simp [hexEncode] at hc
  | cons b bs ih =>
    intro c hc
    have hb : b < 256 := h b (by simp)
    rw [hexEncode_cons] at hc
    simp only [List.mem_cons] at hc
    rcases hc with rfl | rfl | hc
    · exact hexDigit_lowerHex (by omega)
    · exact hexDigit_lowerHex (Nat.mod_lt _ (by norm_num))
    · exact ih (fun u hu => h u (by simp [hu])) c hc

lemma colon_not_mem_hexEncode {bs : List Nat} (h : isBytes bs) :
    ':' ∉ hexEncode bs := by
  intro hmem
  exact lowerHex_ne_colon (mem_hexEncode h ':' hmem) rfl

/-! ### Block splitting, padding and CBC lemmas -/

lemma chunksGo_flatten : ∀ (fuel : Nat) (l : List Nat), l.length ≤ fuel →
    (chunksGo fuel l).flatten = l := by
  intro fuel
  induction fuel with
  | zero =>
    intro l hl
    have : l = [] := List.length_eq_zero.mp (Nat.le_zero.mp hl)
    subst this
    rfl
  | succ f ih =>
    intro l hl
    cases l with
    | nil => rfl
    | cons a l =>
      rw [chunksGo, List.flatten_cons, ih _ (by simp at hl ⊢; omega),
        List.take_append_drop]

lemma chunks_flatten (l : List Nat) : (chunks l).flatten = l :=
  chunksGo_flatten _ _ le_rfl

lemma chunksGo_len16 : ∀ (fuel : Nat) (l : List Nat), l.length ≤ fuel →
    l.length % 16 = 0 → ∀ c ∈ chunksGo fuel l, c.length = 16 := by
  intro fuel
  induction fuel with
  | zero => intro l _ _ c hc; simp [chunksGo] at hc
  | succ f ih =>
    intro l hl hmod c hc
    cases l with
    | nil => simp [chunksGo] at hc
    | cons a l =>
      rw [chunksGo] at hc
      have hlen : l.length + 1 ≥ 16 := by
        simp only [List.length_cons] at hmod
        omega
      simp only [List.length_cons] at hl hmod
      rcases List.mem_cons.mp hc with rfl | hc
      · simp [List.length_take]; omega
      · exact ih _ (by simp; omega) (by simp; omega) c hc

lemma chunksGo_count : ∀ (fuel : Nat) (l : List Nat), l.length ≤ fuel →
    l.length % 16 = 0 → (chunksGo fuel l).length = l.length / 16 := by
  intro fuel
  induction fuel with
  | zero =>
    intro l hl _
    have : l = [] := List.length_eq_zero.mp (Nat.le_zero.mp hl)
    subst this
    rfl
  | succ f ih =>
    intro l hl hmod
    cases l with
    | nil => rfl
    | cons a l =>
      simp only [List.length_cons] at hl hmod
      have hlen : l.length + 1 ≥ 16 := by omega
      rw [chunksGo, List.length_cons,
        ih _ (by simp; omega) (by simp; omega)]
      simp only [List.length_drop, List.length_cons]
      omega

lemma mem_chunksGo_sub : ∀ (fuel : Nat) (l c : List Nat), c ∈ chunksGo fuel l →
    ∀ x ∈ c, x ∈ l := by
  intro fuel
  induction fuel with
  | zero => intro l c hc; simp [chunksGo] at hc
  | succ f ih =>
    intro l c hc x hx
    cases l with
    | nil => simp [chunksGo] at hc
    | cons a l =>
      rw [chunksGo] at hc
      rcases List.mem_cons.mp hc with rfl | hc
      · exact List.mem_of_mem_take hx
      · exact List.mem_of_mem_drop (ih _ _ hc x hx)

lemma flatten_len16 : ∀ (bs : List (List Nat)), (∀ b ∈ bs, b.length = 16) →
    bs.flatten.length = 16 * bs.length := by
  intro bs
  induction bs with
  | nil => intro _; rfl
  | cons b bs ih =>
    intro h
    rw [List.flatten_cons, List.length_append, h b (by simp),
      ih (fun u hu => h u (by simp [hu]))]
    simp [Nat.mul_succ]
    omega

lemma chunksGo_flatten16 : ∀ (bs : List (List Nat)) (fuel : Nat),
    bs.flatten.length ≤ fuel → (∀ b ∈ bs, b.length = 16) →
    chunksGo fuel bs.flatten = bs := by
  intro bs
  induction bs with
  | nil =>
    intro fuel _ _
    cases fuel <;> rfl
  | cons b bs ih =>
    intro fuel hfuel hb
    have hblen : b.length = 16 := hb b (by simp)
    have hflat : (b :: bs).flatten = b ++ bs.flatten := List.flatten_cons ..
    cases fuel with
    | zero =>
      rw [hflat] at hfuel
      simp [hblen] at hfuel
    | succ f =>
      have hcons : ∃ a t, b ++ bs.flatten = a :: t := by
        cases b with
        | nil => simp at hblen
        | cons a bb => exact ⟨a, bb ++ bs.flatten, by simp⟩
      obtain ⟨a, t, hat⟩ := hcons
      rw [hflat, hat, chunksGo, ← hat]
      have htake : (b ++ bs.flatten).take 16 = b := by
        rw [← hblen]
        exact List.take_left b bs.flatten
      have hdrop : (b ++ bs.flatten).drop 16 = bs.flatten := by
        rw [← hblen]
        exact List.drop_left b bs.flatten
      rw [htake, hdrop, ih f ?_ (fun u hu => hb u (by simp [hu]))]
      rw [hflat, List.length_append] at hfuel
      omega

lemma pkcs7pad_mod (l : List Nat) : (pkcs7pad l).length % 16 = 0 := by
  simp [pkcs7pad]
  omega

lemma pkcs7pad_length (l : List Nat) :
    (pkcs7pad l).length = 16 * (l.length / 16 + 1) := by
  simp [pkcs7pad]
  omega

lemma pkcs7pad_bytes {l : List Nat} (h : isBytes l) : isBytes (pkcs7pad l) := by
  intro x hx
  rcases List.mem_append.mp hx with hx | hx
  · exact h x hx
  · have := List.eq_of_mem_replicate hx
    omega

lemma getLast?_append_replicate (l : List Nat) (p : Nat) (hp : 1 ≤ p) :
    (l ++ List.replicate p p).getLast? = some p := by
  obtain ⟨k, hk⟩ : ∃ k, p = k + 1 := ⟨p - 1, by omega⟩
  subst hk
  rw [List.replicate_succ', ← List.append_assoc]
  exact List.getLast?_concat _

lemma pkcs7unpad_append_replicate (l : List Nat) (p : Nat) (hp : 1 ≤ p)
    (hp16 : p ≤ 16) : pkcs7unpad (l ++ List.replicate p p) = some l := by
  have hlen : (l ++ List.replicate p p).length = l.length + p := by simp
  have hsub : (l ++ List.replicate p p).length - p = l.length := by omega
  have h1 : pkcs7unpad (l ++ List.replicate p p) =
      if 1 ≤ p ∧ p ≤ 16 ∧ p ≤ (l ++ List.replicate p p).length ∧
          ∀ x ∈ (l ++ List.replicate p p).drop
            ((l ++ List.replicate p p).length - p), x = p
      then some ((l ++ List.replicate p p).take
        ((l ++ List.replicate p p).length - p))
      else none := by
    unfold pkcs7unpad
    rw [getLast?_append_replicate l p hp]
  rw [h1, if_pos]
  · rw [hsub, List.take_left]
  · refine ⟨hp, hp16, by omega, ?_⟩
    intro x hx
    rw [hsub, List.drop_left] at hx
    exact List.eq_of_mem_replicate hx

lemma pkcs7unpad_pkcs7pad (l : List Nat) : pkcs7unpad (pkcs7pad l) = some l := by
  have h : pkcs7pad l =
      l ++ List.replicate (16 - l.length % 16) (16 - l.length % 16) := rfl
  rw [h]
  exact pkcs7unpad_append_replicate l _ (by omega) (by omega)

/-! ### CBC and AES round-trip lemmas -/

lemma cbcEncBlocks_props (Ek : List Nat → List Nat)
    (hE : ∀ b, b.length = 16 → isBytes b → (Ek b).length = 16 ∧ isBytes (Ek b)) :
    ∀ (bs : List (List Nat)) (prev : List Nat), prev.length = 16 → isBytes prev →
      (∀ b ∈ bs, b.length = 16 ∧ isBytes b) →
      ∀ c ∈ cbcEncBlocks Ek prev bs, c.length = 16 ∧ isBytes c := by
  intro bs
  induction bs with
  | nil => intro prev _ _ _ c hc; simp [cbcEncBlocks] at hc
  | cons b bs ih =>
    intro prev hprev hprevB hbs c hc
    have hb : b.length = 16 ∧ isBytes b := hbs b (by simp)
    have hxlen : (xorBytes b prev).length = 16 := by
      rw [xorBytes_length, hb.1, hprev]
      simp
    have hxB : isBytes (xorBytes b prev) := xorBytes_bytes hb.2 hprevB
    have hc' : (Ek (xorBytes b prev)).length = 16 ∧ isBytes (Ek (xorBytes b prev)) :=
      hE _ hxlen hxB
    rw [cbcEncBlocks] at hc
    rcases List.mem_cons.mp hc with rfl | hc
    · exact hc'
    · exact ih _ hc'.1 hc'.2 (fun u hu => hbs u (by simp [hu])) c hc

lemma cbcDecBlocks_cbcEncBlocks (Ek Dk : List Nat → List Nat)
    (hE : ∀ b, b.length = 16 → isBytes b → (Ek b).length = 16 ∧ isBytes (Ek b))
    (hD : ∀ b, b.length = 16 → isBytes b → Dk (Ek b) = b) :
    ∀ (bs : List (List Nat)) (prev : List Nat), prev.length = 16 → isBytes prev →
      (∀ b ∈ bs, b.length = 16 ∧ isBytes b) →
      cbcDecBlocks Dk prev (cbcEncBlocks Ek prev bs) = bs := by
  intro bs
  induction bs with
  | nil => intro prev _ _ _; rfl
  | cons b bs ih =>
    intro prev hprev hprevB hbs
    have hb : b.length = 16 ∧ isBytes b := hbs b (by simp)
    have hxlen : (xorBytes b prev).length = 16 := by
      rw [xorBytes_length, hb.1, hprev]
      simp
    have hxB : isBytes (xorBytes b prev) := xorBytes_bytes hb.2 hprevB
    have hc : (Ek (xorBytes b prev)).length = 16 ∧ isBytes (Ek (xorBytes b prev)) :=
      hE _ hxlen hxB
    rw [cbcEncBlocks, cbcDecBlocks]
    rw [hD _ hxlen hxB]
    rw [xorBytes_cancel b prev (by rw [hb.1, hprev])]
    rw [ih _ hc.1 hc.2 (fun u hu => hbs u (by simp [hu]))]

lemma cbcEncBlocks_length (Ek : List Nat → List Nat) :
    ∀ (bs : List (List Nat)) (prev : List Nat),
      (cbcEncBlocks Ek prev bs).length = bs.length := by
  intro bs
  induction bs with
  | nil => intro prev; rfl
  | cons b bs ih =>
    intro prev
    rw [cbcEncBlocks]
    simp only [List.length_cons]
    rw [ih]

lemma chunks_count (l : List Nat) (hmod : l.length % 16 = 0) :
    (chunks l).length = l.length / 16 :=
  chunksGo_count _ _ le_rfl hmod

lemma aesEncrypt_some (E : List Nat → List Nat → List Nat) {key iv : List Nat}
    (pt : List Nat) (hk : key.length = 16) (hiv : iv.length = 16) :
    aesEncrypt E key iv pt =
      some (cbcEncBlocks (E key) iv (chunks (pkcs7pad pt))).flatten := by
  unfold aesEncrypt
  rw [if_pos ⟨hk, hiv⟩]

lemma aesEncrypt_props {E D : List Nat → List Nat → List Nat}
    (hC : CipherOK E D) {key iv pt ct : List Nat}
    (hk : key.length = 16) (hiv : iv.length = 16)
    (hkB : isBytes key) (hivB : isBytes iv) (hptB : isBytes pt)
    (h : aesEncrypt E key iv pt = some ct) :
    isBytes ct ∧ ct.length = 16 * (pt.length / 16 + 1) := by
  rw [aesEncrypt_some E pt hk hiv] at h
  have hblocks : ∀ b ∈ chunks (pkcs7pad pt), b.length = 16 ∧ isBytes b := by
    intro b hb
    refine ⟨chunksGo_len16 _ _ le_rfl (pkcs7pad_mod pt) b hb, ?_⟩
    intro x hx
    exact pkcs7pad_bytes hptB x (mem_chunksGo_sub _ _ _ hb x hx)
  have hE : ∀ b, b.length = 16 → isBytes b →
      (E key b).length = 16 ∧ isBytes (E key b) := fun b hb hbB =>
    ⟨hC.len key b hk hb hkB hbB, hC.bytes key b hk hb hkB hbB⟩
  have hprops := cbcEncBlocks_props (E key) hE (chunks (pkcs7pad pt)) iv hiv hivB hblocks
  have hct : ct = (cbcEncBlocks (E key) iv (chunks (pkcs7pad pt))).flatten := by
    injection h.symm
  subst hct
  constructor
  · intro x hx
    rcases List.mem_flatten.mp hx with ⟨c, hc, hxc⟩
    exact (hprops c hc).2 x hxc
  · rw [flatten_len16 _ (fun b hb => (hprops b hb).1), cbcEncBlocks_length,
      chunks_count _ (pkcs7pad_mod pt), pkcs7pad_length]
    omega

lemma aes_roundtrip {E D : List Nat → List Nat → List Nat}
    (hC : CipherOK E D) {key iv pt ct : List Nat}
    (hk : key.length = 16) (hiv : iv.length = 16)
    (hkB : isBytes key) (hivB : isBytes iv) (hptB : isBytes pt)
    (h : aesEncrypt E key iv pt = some ct) :
    aesDecrypt D key iv ct = some pt := by
  have hprops := aesEncrypt_props hC hk hiv hkB hivB hptB h
  rw [aesEncrypt_some E pt hk hiv] at h
  have hct : ct = (cbcEncBlocks (E key) iv (chunks (pkcs7pad pt))).flatten := by
    injection h.symm
  have hblocks : ∀ b ∈ chunks (pkcs7pad pt), b.length = 16 ∧ isBytes b := by
    intro b hb
    refine ⟨chunksGo_len16 _ _ le_rfl (pkcs7pad_mod pt) b hb, ?_⟩
    intro x hx
    exact pkcs7pad_bytes hptB x (mem_chunksGo_sub _ _ _ hb x hx)
  have hE : ∀ b, b.length = 16 → isBytes b →
      (E key b).length = 16 ∧ isBytes (E key b) := fun b hb hbB =>
    ⟨hC.len key b hk hb hkB hbB, hC.bytes key b hk hb hkB hbB⟩
  have hD : ∀ b, b.length = 16 → isBytes b → D key (E key b) = b := fun b hb hbB =>
    hC.dec key b hk hb hkB hbB
  have hencprops := cbcEncBlocks_props (E key) hE (chunks (pkcs7pad pt)) iv hiv hivB hblocks
  have hmod : ct.length % 16 = 0 := by rw [hprops.2]; omega
  unfold aesDecrypt
  rw [if_pos ⟨hk, hiv, hmod⟩]
  have hchunks : chunks ct = cbcEncBlocks (E key) iv (chunks (pkcs7pad pt)) := by
    rw [hct]
    exact chunksGo_flatten16 _ _ le_rfl (fun b hb => (hencprops b hb).1)
  rw [hchunks,
    cbcDecBlocks_cbcEncBlocks (E key) (D key) hE hD _ iv hiv hivB hblocks,
    chunks_flatten]
  exact pkcs7unpad_pkcs7pad pt

/-! ### Decimal printing and strict parsing lemmas -/

lemma digitChar_toNat {d : Nat} (h : d < 10) : (digitChar d).toNat = 48 + d := by
  interval_cases d <;> decide

lemma isDigitChar_digitChar {d : Nat} (h : d < 10) :
    isDigitChar (digitChar d) = true := by
  interval_cases d <;> decide

lemma isDigitChar_iff {c : Char} :
    isDigitChar c = true ↔ 48 ≤ c.toNat ∧ c.toNat ≤ 57 := by
  simp [isDigitChar]

lemma isWs_iff {c : Char} : isWs c = true ↔
    c.toNat = 32 ∨ c.toNat = 9 ∨ c.toNat = 10 ∨ c.toNat = 13 := by
  simp [isWs, or_assoc]

lemma digit_isWs {c : Char} (h : isDigitChar c = true) : isWs c = false := by
  rcases hb : isWs c with _ | _
  · rfl
  · rw [isDigitChar_iff] at h
    rw [isWs_iff] at hb
    omega

lemma digit_ne_minus {c : Char} (h : isDigitChar c = true) : c ≠ '-' := by
  rintro rfl
  exact absurd h (by decide)

lemma digit_ne_plus {c : Char} (h : isDigitChar c = true) : c ≠ '+' := by
  rintro rfl
  exact absurd h (by decide)

lemma natToCharsGo_zero (fuel : Nat) (acc : List Char) :
    natToCharsGo fuel 0 acc = acc := by
  cases fuel <;> rfl

lemma natToCharsGo_eq : ∀ (fuel n : Nat) (acc : List Char), 1 ≤ n → n ≤ fuel →
    natToCharsGo fuel n acc = ((Nat.digits 10 n).reverse.map digitChar) ++ acc := by
  intro fuel
  induction fuel with
  | zero => intro n acc h1 h2; omega
  | succ f ih =>
    intro n acc h1 _
    obtain ⟨m, rfl⟩ : ∃ m, n = m + 1 := ⟨n - 1, by omega⟩
    rw [show natToCharsGo (f + 1) (m + 1) acc =
      natToCharsGo f ((m + 1) / 10) (digitChar ((m + 1) % 10) :: acc) from rfl]
    rw [Nat.digits_def' (by norm_num : (1:Nat) < 10) (by omega : 0 < m + 1)]
    by_cases hq : (m + 1) / 10 = 0
    · rw [hq, natToCharsGo_zero, Nat.digits_zero]
      have : (m + 1) % 10 = m + 1 := by omega
      simp [this]
    · rw [ih ((m + 1) / 10) _ (by omega) ?_]
      · simp [List.append_assoc]
      · have := Nat.div_lt_self (by omega : 0 < m + 1) (by norm_num : 1 < 10)
        omega

lemma natToChars_eq_digits {n : Nat} (h : n ≠ 0) :
    natToChars n = (Nat.digits 10 n).reverse.map digitChar := by
  unfold natToChars
  rw [if_neg h, natToCharsGo_eq n n [] (by omega) le_rfl, List.append_nil]

lemma charsToNat_digits : ∀ (L : List Nat) (a : Nat), (∀ d ∈ L, d < 10) →
    List.foldl (fun x c => 10 * x + (c.toNat - 48)) a (L.reverse.map digitChar) =
      a * 10 ^ L.length + Nat.ofDigits 10 L := by
  intro L
  induction L with
  | nil => intro a _; simp [Nat.ofDigits_nil]
  | cons d L ih =>
    intro a h
    have hd : d < 10 := h d (by simp)
    rw [List.reverse_cons, List.map_append, List.foldl_append,
      ih a (fun u hu => h u (by simp [hu]))]
    simp only [List.map_cons, List.map_nil, List.foldl_cons, List.foldl_nil]
    rw [digitChar_toNat hd, Nat.ofDigits_cons]
    simp only [List.length_cons, Nat.cast_id]
    ring_nf
    omega

lemma charsToNat_natToChars (n : Nat) : charsToNat (natToChars n) = n := by
  by_cases h : n = 0
  · subst h; decide
  · rw [natToChars_eq_digits h]
    unfold charsToNat
    rw [charsToNat_digits _ 0 (fun d hd => Nat.digits_lt_base (by norm_num) hd)]
    simp [Nat.ofDigits_digits]

lemma natToChars_ne_nil (n : Nat) : natToChars n ≠ [] := by
  by_cases h : n = 0
  · subst h; decide
  · rw [natToChars_eq_digits h]
    simp [Nat.digits_ne_nil_iff_ne_zero, h]

lemma natToChars_all_digits (n : Nat) :
    ∀ c ∈ natToChars n, isDigitChar c = true := by
  by_cases h : n = 0
  · subst h; intro c hc; simp [natToChars] at hc; subst hc; decide
  · rw [natToChars_eq_digits h]
    intro c hc
    rcases List.mem_map.mp hc with ⟨d, hd, rfl⟩
    exact isDigitChar_digitChar
      (Nat.digits_lt_base (by norm_num) (List.mem_reverse.mp hd))

lemma takeWhile_all_digits : ∀ (s : List Char), (∀ c ∈ s, isDigitChar c = true) →
    s.takeWhile isDigitChar = s := by
  intro s
  induction s with
  | nil => intro _; rfl
  | cons c cs ih =>
    intro h
    rw [List.takeWhile_cons, h c (by simp), ih (fun u hu => h u (by simp [hu]))]
    simp

lemma jsParseInt_digits {s : List Char} (hne : s ≠ [])
    (h : ∀ c ∈ s, isDigitChar c = true) :
    jsParseInt s = some ((charsToNat s : Nat) : Int) := by
  cases s with
  | nil => exact absurd rfl hne
  | cons c cs =>
    have hc : isDigitChar c = true := h c (by simp)
    have hdrop : (c :: cs).dropWhile isWs = c :: cs := by
      rw [List.dropWhile_cons, digit_isWs hc]
      simp
    unfold jsParseInt
    simp only [hdrop]
    rw [if_neg (digit_ne_minus hc), if_neg (digit_ne_plus hc)]
    unfold digitsVal
    rw [takeWhile_all_digits _ h]
    simp

lemma intToChars_ofNat (n : Nat) : intToChars ((n : Nat) : Int) = natToChars n := by
  unfold intToChars
  rw [if_neg (by omega : ¬((n : Int) < 0))]
  simp

lemma parseNNI_of_jsParseInt {s : List Char} {m : Int} (h : jsParseInt s = some m) :
    parseNonNegativeInteger s =
      if intToChars m = s then
        if 0 ≤ m then .ok m.toNat
        else .error "panic! wrong non negative integer"
      else .error "parseNonNegativeInteger: not a valid number" := by
  unfold parseNonNegativeInteger
  rw [h]

lemma parseNNI_of_jsParseInt_none {s : List Char} (h : jsParseInt s = none) :
    parseNonNegativeInteger s = .error "parseNonNegativeInteger: not a number" := by
  unfold parseNonNegativeInteger
  rw [h]

lemma parse_natToChars (n : Nat) :
    parseNonNegativeInteger (natToChars n) = .ok n := by
  have hj : jsParseInt (natToChars n) = some ((n : Nat) : Int) := by
    rw [jsParseInt_digits (natToChars_ne_nil n) (natToChars_all_digits n),
      charsToNat_natToChars]
  rw [parseNNI_of_jsParseInt hj, if_pos (intToChars_ofNat n),
    if_pos (by omega : (0:Int) ≤ (n : Nat))]
  simp

lemma parse_ok_canonical {s : List Char} {n : Nat}
    (h : parseNonNegativeInteger s = .ok n) : s = natToChars n := by
  rcases hj : jsParseInt s with _ | m
  · rw [parseNNI_of_jsParseInt_none hj] at h
    simp at h
  · rw [parseNNI_of_jsParseInt hj] at h
    by_cases h1 : intToChars m = s
    · rw [if_pos h1] at h
      by_cases h2 : (0:Int) ≤ m
      · rw [if_pos h2] at h
        simp only [Except.ok.injEq] at h
        subst h
        rw [← h1]
        unfold intToChars
        rw [if_neg (by omega : ¬(m < 0))]
      · rw [if_neg h2] at h
        simp at h
    · rw [if_neg h1] at h
      simp at h

/-! ### Colon splitting and decode-chain lemmas -/

lemma isOk_error {α : Type} (s : String) :
    (Except.error s : Except String α).isOk = false := rfl

lemma isOk_ok {α : Type} (v : α) :
    (Except.ok v : Except String α).isOk = true := rfl

lemma splitOnColon_cons (c : Char) (rest : List Char) :
    splitOnColon (c :: rest) =
      if c = ':' then [] :: splitOnColon rest
      else
        match splitOnColon rest with
        | h :: t => (c :: h) :: t
        | [] => [[c]] := rfl

lemma splitOnColon_ne_nil : ∀ l : List Char, splitOnColon l ≠ [] := by
  intro l
  induction l with
  | nil => simp [splitOnColon]
  | cons c rest ih =>
    rw [splitOnColon_cons]
    by_cases hc : c = ':'
    · simp [hc]
    · rw [if_neg hc]
      rcases hs : splitOnColon rest with _ | ⟨h, t⟩
      · simp
      · simp

lemma splitOnColon_no_colon : ∀ l : List Char, ':' ∉ l → splitOnColon l = [l] := by
  intro l
  induction l with
  | nil => intro _; rfl
  | cons c rest ih =>
    intro h
    have hc : c ≠ ':' := fun hc => h (by simp [hc])
    rw [splitOnColon_cons, if_neg hc, ih (fun hm => h (by simp [hm]))]

lemma splitOnColon_append : ∀ (a l : List Char) (h : List Char)
    (t : List (List Char)), ':' ∉ a → splitOnColon l = h :: t →
    splitOnColon (a ++ l) = (a ++ h) :: t := by
  intro a
  induction a with
  | nil => intro l h t _ hs; simpa using hs
  | cons c a ih =>
    intro l h t hna hs
    have hc : c ≠ ':' := fun hc => hna (by simp [hc])
    rw [List.cons_append, splitOnColon_cons, if_neg hc,
      ih l h t (fun hm => hna (by simp [hm])) hs]
    rfl

lemma splitOnColon_sep (a l : List Char) (hna : ':' ∉ a) :
    splitOnColon (a ++ ':' :: l) = a :: splitOnColon l := by
  have h1 : splitOnColon (':' :: l) = [] :: splitOnColon l := by
    rw [splitOnColon_cons, if_pos rfl]
  rw [splitOnColon_append a (':' :: l) [] (splitOnColon l) hna h1, List.append_nil]

lemma splitOnColon_length : ∀ l : List Char,
    (splitOnColon l).length = l.count ':' + 1 := by
  intro l
  induction l with
  | nil => rfl
  | cons c rest ih =>
    rw [splitOnColon_cons]
    by_cases hc : c = ':'
    · subst hc
      simp [List.count_cons, ih]
    · rw [if_neg hc]
      rcases hs : splitOnColon rest with _ | ⟨h, t⟩
      · exact absurd hs (splitOnColon_ne_nil rest)
      · rw [hs] at ih
        simp only [List.length_cons] at ih
        simp [List.count_cons, hc, ← ih]

lemma splitOnColon_head : ∀ l : List Char,
    (splitOnColon l).head? = some (l.takeWhile (fun c => c != ':')) := by
  intro l
  induction l with
  | nil => rfl
  | cons c rest ih =>
    rw [splitOnColon_cons]
    by_cases hc : c = ':'
    · subst hc
      simp [List.takeWhile_cons]
    · rw [if_neg hc]
      rcases hs : splitOnColon rest with _ | ⟨h, t⟩
      · exact absurd hs (splitOnColon_ne_nil rest)
      · rw [hs] at ih
        simp only [List.head?_cons, Option.some.injEq] at ih
        simp [List.takeWhile_cons, hc, ← ih]

lemma colon_decomp : ∀ l : List Char, ':' ∈ l →
    ∃ a b, l = a ++ ':' :: b ∧ ':' ∉ a := by
  intro l
  induction l with
  | nil => intro h; simp at h
  | cons c rest ih =>
    intro h
    by_cases hc : c = ':'
    · subst hc
      exact ⟨[], rest, rfl, by simp⟩
    · have : ':' ∈ rest := by
        rcases List.mem_cons.mp h with h1 | h1
        · exact absurd h1.symm hc
        · exact h1
      obtain ⟨a, b, hab, hna⟩ := ih this
      exact ⟨c :: a, b, by rw [hab]; rfl,
        fun hm => by rcases List.mem_cons.mp hm with h2 | h2
                     exacts [hc h2.symm, hna h2]⟩

lemma takeWhile_append_stop (p : Char → Bool) (c : Char) (hpc : p c = false) :
    ∀ (xs ys : List Char), (xs ++ c :: ys).takeWhile p = xs.takeWhile p := by
  intro xs
  induction xs with
  | nil => intro ys; simp [List.takeWhile_cons, hpc]
  | cons x xs ih =>
    intro ys
    rcases hp : p x with _ | _ <;>
      simp [List.takeWhile_cons, hp, ih]

lemma length_takeWhile_le (p : Char → Bool) : ∀ l : List Char,
    (l.takeWhile p).length ≤ l.length := by
  intro l
  induction l with
  | nil => simp
  | cons c rest ih =>
    rcases hp : p c with _ | _ <;> simp [List.takeWhile_cons, hp] <;> omega

lemma decode_of_split2 (Dc : List Nat → List Nat → List Nat) (et : List Char)
    (key : List Nat) {e iv : List Char} {rest : List (List Char)}
    (hsplit : splitOnColon et = e :: iv :: rest) :
    decodeTimestamp Dc et key =
      match hexDecode iv with
      | none => .error "invalid iv hex"
      | some ivb =>
        match hexDecode e with
        | none => .error "invalid ciphertext hex"
        | some ct =>
          match aesDecrypt Dc key ivb ct with
          | none => .error "bad decrypt"
          | some pt => parseNonNegativeInteger (bytesToChars pt) := by
  unfold decodeTimestamp
  rw [hsplit]

lemma aesDecrypt_none_of_iv (Dc : List Nat → List Nat → List Nat)
    (key iv ct : List Nat) (h : iv.length ≠ 16) : aesDecrypt Dc key iv ct = none := by
  unfold aesDecrypt
  rw [if_neg (fun hcond => h hcond.2.1)]

lemma decode_fail_iff_chain (Dc : List Nat → List Nat → List Nat)
    (key : List Nat) {et e iv : List Char} {rest : List (List Char)}
    (hsplit : splitOnColon et = e :: iv :: rest) :
    (decodeTimestamp Dc et key).isOk = false ↔
      (hexDecode iv = none ∨ ∃ ivb, hexDecode iv = some ivb ∧
        (hexDecode e = none ∨ ∃ ct, hexDecode e = some ct ∧
          (aesDecrypt Dc key ivb ct = none ∨
            ∃ pt, aesDecrypt Dc key ivb ct = some pt ∧
              (parseNonNegativeInteger (bytesToChars pt)).isOk = false))) := by
  rw [decode_of_split2 Dc et key hsplit]
  rcases h1 : hexDecode iv with _ | ivb
  · simp [h1, isOk_error]
  · rcases h2 : hexDecode e with _ | ct
    · simp [h1, h2, isOk_error]
    · rcases h3 : aesDecrypt Dc key ivb ct with _ | pt
      · simp [h1, h2, h3, isOk_error]
      · simp [h1, h2, h3]

lemma decode_fail_short_iv (Dc : List Nat → List Nat → List Nat)
    (key : List Nat) {et e iv : List Char} {rest : List (List Char)}
    (hsplit : splitOnColon et = e :: iv :: rest) (hlen : iv.length ≤ 31) :
    (decodeTimestamp Dc et key).isOk = false := by
  rw [decode_fail_iff_chain Dc key hsplit]
  rcases h1 : hexDecode iv with _ | ivb
  · exact Or.inl rfl
  · have hivb : ivb.length ≠ 16 := by
      have := hexDecode_length h1
      omega
    rcases h2 : hexDecode e with _ | ct
    · exact Or.inr ⟨ivb, rfl, Or.inl rfl⟩
    · exact Or.inr ⟨ivb, rfl, Or.inr
        ⟨ct, rfl, Or.inl (aesDecrypt_none_of_iv Dc key ivb ct hivb)⟩⟩

/-! ### Concrete cipher instance and challenge helpers -/

lemma cipherOK_xor : CipherOK xorCipher xorCipher := by
  constructor
  · intro k b hk hb _ _
    show (List.zipWith Nat.xor b k).length = 16
    rw [List.length_zipWith, hb, hk]
    simp
  · intro k b _ _ hkB hbB
    exact xorBytes_bytes hbB hkB
  · intro k b hk hb _ _
    show xorBytes (xorBytes b k) k = b
    exact xorBytes_cancel b k (hb.trans hk.symm)

/-- The 16 key bytes drawn by `createChallenge` from generator state `g`. -/
def challengeKey (g : RandomGenerator) : List Nat := (randN 16 g).1.map toByte

/-- The 16 IV bytes drawn by `createChallenge` after the key draw. -/
def challengeIV (g : RandomGenerator) : List Nat :=
  (randN 16 (randN 16 g).2).1.map toByte

/-- The hex-encoded ciphertext `createChallenge` submits to the
encrypted-part codec (empty in the unreachable cipher-failure case). -/
def challengeCipherHex (E : List Nat → List Nat → List Nat) (t : Nat)
    (g : RandomGenerator) : List Char :=
  match aesEncrypt E (challengeKey g) (challengeIV g) (strToBytes (natToChars t)) with
  | some ct => hexEncode ct
  | none => []

lemma challengeKey_length (g : RandomGenerator) : (challengeKey g).length = 16 := by
  simp [challengeKey, randN_length]

lemma challengeIV_length (g : RandomGenerator) : (challengeIV g).length = 16 := by
  simp [challengeIV, randN_length]

lemma challengeKey_bytes (g : RandomGenerator) : isBytes (challengeKey g) := by
  intro x hx
  rcases List.mem_map.mp hx with ⟨v, _, rfl⟩
  exact toByte_lt v

lemma challengeIV_bytes (g : RandomGenerator) : isBytes (challengeIV g) := by
  intro x hx
  rcases List.mem_map.mp hx with ⟨v, _, rfl⟩
  exact toByte_lt v

lemma strToBytes_length (s : List Char) : (strToBytes s).length = s.length :=
  List.length_map s Char.toNat

lemma strToBytes_natToChars_bytes (t : Nat) : isBytes (strToBytes (natToChars t)) := by
  intro x hx
  rcases List.mem_map.mp hx with ⟨c, hc, rfl⟩
  have := isDigitChar_iff.mp (natToChars_all_digits t c hc)
  omega

lemma createChallenge_eq (E : List Nat → List Nat → List Nat) (t : Nat)
    (g : RandomGenerator) :
    createChallenge E t g =
      match aesEncrypt E (challengeKey g) (challengeIV g)
          (strToBytes (natToChars t)) with
      | none => .error "createCipheriv"
      | some ct =>
        if hexEncode ct ≠ [] ∧ (hexEncode ct).length = 32 then
          if hexEncode (challengeIV g) ≠ [] ∧
              (hexEncode (challengeIV g)).length = 32 then
            .ok (⟨hexEncode ct ++ ':' :: hexEncode (challengeIV g),
              challengeKey g⟩, (randN 16 (randN 16 g).2).2)
          else .error "castIV"
        else .error "castEncodedTimestampEncryptedPart" := rfl

lemma aesEncrypt_challenge_some (E : List Nat → List Nat → List Nat) (t : Nat)
    (g : RandomGenerator) :
    aesEncrypt E (challengeKey g) (challengeIV g) (strToBytes (natToChars t)) =
      some (cbcEncBlocks (E (challengeKey g)) (challengeIV g)
        (chunks (pkcs7pad (strToBytes (natToChars t))))).flatten :=
  aesEncrypt_some E _ (challengeKey_length g) (challengeIV_length g)

lemma createChallenge_eq_some {E : List Nat → List Nat → List Nat} {t : Nat}
    {g : RandomGenerator} {ct : List Nat}
    (haes : aesEncrypt E (challengeKey g) (challengeIV g)
      (strToBytes (natToChars t)) = some ct) :
    createChallenge E t g =
      if hexEncode ct ≠ [] ∧ (hexEncode ct).length = 32 then
        if hexEncode (challengeIV g) ≠ [] ∧
            (hexEncode (challengeIV g)).length = 32 then
          .ok (⟨hexEncode ct ++ ':' :: hexEncode (challengeIV g),
            challengeKey g⟩, (randN 16 (randN 16 g).2).2)
        else .error "castIV"
      else .error "castEncodedTimestampEncryptedPart" := by
  rw [createChallenge_eq, haes]

lemma createChallenge_ok_inv {E : List Nat → List Nat → List Nat} {t : Nat}
    {g g' : RandomGenerator} {r : ChallengeResult}
    (h : createChallenge E t g = .ok (r, g')) :
    ∃ ct, aesEncrypt E (challengeKey g) (challengeIV g)
        (strToBytes (natToChars t)) = some ct ∧
      (hexEncode ct).length = 32 ∧
      r = ⟨hexEncode ct ++ ':' :: hexEncode (challengeIV g), challengeKey g⟩ ∧
      g' = (randN 16 (randN 16 g).2).2 := by
  rcases haes : aesEncrypt E (challengeKey g) (challengeIV g)
      (strToBytes (natToChars t)) with _ | ct
  · rw [createChallenge_eq, haes] at h
    simp at h
  · rw [createChallenge_eq_some haes] at h
    by_cases h1 : hexEncode ct ≠ [] ∧ (hexEncode ct).length = 32
    · rw [if_pos h1] at h
      by_cases h2 : hexEncode (challengeIV g) ≠ [] ∧
          (hexEncode (challengeIV g)).length = 32
      · rw [if_pos h2] at h
        simp only [Except.ok.injEq, Prod.mk.injEq] at h
        exact ⟨ct, rfl, h1.2, h.1.symm, h.2.symm⟩
      · rw [if_neg h2] at h
        simp at h
    · rw [if_neg h1] at h
      simp at h

lemma bytesToChars_strToBytes (s : List Char) : bytesToChars (strToBytes s) = s := by
  unfold bytesToChars strToBytes
  rw [List.map_map]
  have h : Char.ofNat ∘ Char.toNat = id := funext Char.ofNat_toNat
  rw [h, List.map_id]

lemma challengeCipherHex_eq {E : List Nat → List Nat → List Nat} {t : Nat}
    {g : RandomGenerator} {ct : List Nat}
    (haes : aesEncrypt E (challengeKey g) (challengeIV g)
      (strToBytes (natToChars t)) = some ct) :
    challengeCipherHex E t g = hexEncode ct := by
  unfold challengeCipherHex
  rw [haes]

lemma challenge_ct_props {E D : List Nat → List Nat → List Nat}
    (hC : CipherOK E D) {t : Nat} {g : RandomGenerator} {ct : List Nat}
    (haes : aesEncrypt E (challengeKey g) (challengeIV g)
      (strToBytes (natToChars t)) = some ct) :
    isBytes ct ∧ ct.length = 16 * ((natToChars t).length / 16 + 1) := by
  have h := aesEncrypt_props hC (challengeKey_length g) (challengeIV_length g)
    (challengeKey_bytes g) (challengeIV_bytes g)
    (strToBytes_natToChars_bytes t) haes
  rwa [strToBytes_length] at h

lemma createChallenge_ok_iff {E D : List Nat → List Nat → List Nat}
    (hC : CipherOK E D) (t : Nat) (g : RandomGenerator) :
    (createChallenge E t g).isOk = true ↔ (natToChars t).length ≤ 15 := by
  rcases haes : aesEncrypt E (challengeKey g) (challengeIV g)
      (strToBytes (natToChars t)) with _ | ct
  · rw [aesEncrypt_challenge_some] at haes
    simp at haes
  · have hct := challenge_ct_props hC haes
    have hiv32 : (hexEncode (challengeIV g)).length = 32 := by
      rw [hexEncode_length, challengeIV_length]
    have hivne : hexEncode (challengeIV g) ≠ [] := by
      intro hnil
      rw [hnil] at hiv32
      simp at hiv32
    rw [createChallenge_eq_some haes]
    by_cases h32 : (hexEncode ct).length = 32
    · have hne : hexEncode ct ≠ [] := by
        intro hnil
        rw [hnil] at h32
        simp at h32
      rw [if_pos ⟨hne, h32⟩, if_pos ⟨hivne, hiv32⟩]
      have hlen : (natToChars t).length ≤ 15 := by
        rw [hexEncode_length] at h32
        omega
      simp [isOk_ok, hlen]
    · rw [if_neg (fun hcond => h32 hcond.2)]
      have hlen : ¬((natToChars t).length ≤ 15) := by
        rw [hexEncode_length] at h32
        omega
      simp [isOk_error, hlen]

/-! ### Claim theorems -/

/-- Claim C2: on every encoded timestamp of the branded shape (a 32-character
encrypted part, one separating colon, a 32-character IV part — the characters
themselves unconstrained), `decodeTimestamp` propagates an error exactly when
the colon-split does not yield exactly two parts, or hex decoding of the IV
part fails, or cipher decryption (including hex decoding of the ciphertext
half and padding validation) fails, or the decrypted payload is not a
canonical non-negative decimal integer; in every other case it returns the
parsed integer. -/
theorem c2_decode_error_iff (D : List Nat → List Nat → List Nat)
    (key : List Nat) (p i : List Char) (hp : p.length = 32) (hi : i.length = 32) :
    (decodeTimestamp D (p ++ ':' :: i) key).isOk = false ↔
      ((splitOnColon (p ++ ':' :: i)).length ≠ 2 ∨
        ∃ e iv rest, splitOnColon (p ++ ':' :: i) = e :: iv :: rest ∧
          (hexDecode iv = none ∨ ∃ ivb, hexDecode iv = some ivb ∧
            (hexDecode e = none ∨ ∃ ct, hexDecode e = some ct ∧
              (aesDecrypt D key ivb ct = none ∨
                ∃ pt, aesDecrypt D key ivb ct = some pt ∧
                  (parseNonNegativeInteger (bytesToChars pt)).isOk = false)))) := by
  by_cases hcp : ':' ∈ p
  · obtain ⟨a, b, hpab, hna⟩ := colon_decomp p hcp
    have het : p ++ ':' :: i = a ++ ':' :: (b ++ ':' :: i) := by
      rw [hpab]
      simp
    rcases hsb : splitOnColon (b ++ ':' :: i) with _ | ⟨h2, t2⟩
    · exact absurd hsb (splitOnColon_ne_nil _)
    have hsplit : splitOnColon (p ++ ':' :: i) = a :: h2 :: t2 := by
      rw [het, splitOnColon_sep a _ hna, hsb]
    have hh2 : h2 = (b ++ ':' :: i).takeWhile (fun c => c != ':') := by
      have hhd := splitOnColon_head (b ++ ':' :: i)
      rw [hsb] at hhd
      simpa using hhd
    have hblen : b.length ≤ 31 := by
      have : p.length = a.length + (b.length + 1) := by
        rw [hpab, List.length_append, List.length_cons]
      omega
    have hh2len : h2.length ≤ 31 := by
      rw [hh2, takeWhile_append_stop _ ':' (by simp) b i]
      have := length_takeWhile_le (fun c => c != ':') b
      omega
    have hLHS : (decodeTimestamp D (p ++ ':' :: i) key).isOk = false :=
      decode_fail_short_iv D key hsplit hh2len
    have hcount : (splitOnColon (p ++ ':' :: i)).length ≠ 2 := by
      rw [splitOnColon_length]
      have h1 : (p ++ ':' :: i).count ':' =
          p.count ':' + (i.count ':' + 1) := by
        rw [List.count_append, List.count_cons]
        simp
      have h2 : 0 < p.count ':' := List.count_pos_iff.mpr hcp
      omega
    exact iff_of_true hLHS (Or.inl hcount)
  · by_cases hci : ':' ∈ i
    · obtain ⟨a, b, hiab, hna⟩ := colon_decomp i hci
      have hsi : splitOnColon i = a :: splitOnColon b := by
        rw [hiab]
        exact splitOnColon_sep a b hna
      rcases hsb : splitOnColon b with _ | ⟨h2, t2⟩
      · exact absurd hsb (splitOnColon_ne_nil _)
      have hsplit : splitOnColon (p ++ ':' :: i) = p :: a :: (h2 :: t2) := by
        rw [splitOnColon_sep p i hcp, hsi, hsb]
      have halen : a.length ≤ 31 := by
        have : i.length = a.length + (b.length + 1) := by
          rw [hiab, List.length_append, List.length_cons]
        omega
      have hLHS : (decodeTimestamp D (p ++ ':' :: i) key).isOk = false :=
        decode_fail_short_iv D key hsplit halen
      have hcount : (splitOnColon (p ++ ':' :: i)).length ≠ 2 := by
        rw [splitOnColon_length]
        have h1 : (p ++ ':' :: i).count ':' =
            p.count ':' + (i.count ':' + 1) := by
          rw [List.count_append, List.count_cons]
          simp
        have h2 : 0 < i.count ':' := List.count_pos_iff.mpr hci
        omega
      exact iff_of_true hLHS (Or.inl hcount)
    · have hsplit : splitOnColon (p ++ ':' :: i) = [p, i] := by
        rw [splitOnColon_sep p i hcp, splitOnColon_no_colon i hci]
      rw [decode_fail_iff_chain D key hsplit, hsplit]
      simp only [List.length_cons, List.length_nil, List.cons.injEq]
      constructor
      · intro h
        exact Or.inr ⟨p, i, [], ⟨rfl, rfl, rfl⟩, h⟩
      · rintro (h | ⟨e, iv, rest, ⟨he, hiv, hrest⟩, h⟩)
        · omega
        · subst he
          subst hiv
          exact h

/-- Claim C1 (amended): whenever `createChallenge(t)` run on generator state
`g` succeeds — which it does exactly when the decimal string of `t` fits one
AES block — decoding the returned encoded timestamp with the returned secret
key yields `t`.  For all 16-or-more-digit timestamps `createChallenge` itself
throws, so no encoded timestamp is produced (see the counterexample). -/
theorem c1_roundtrip_on_success (E D : List Nat → List Nat → List Nat)
    (hC : CipherOK E D) (t : Nat) (g g' : RandomGenerator) (r : ChallengeResult)
    (h : createChallenge E t g = .ok (r, g')) :
    decodeTimestamp D r.encodedTimestamp r.secretKey = .ok t := by
  obtain ⟨ct, haes, h32, hr, hg⟩ := createChallenge_ok_inv h
  have hctB : isBytes ct := (challenge_ct_props hC haes).1
  have hivB : isBytes (challengeIV g) := challengeIV_bytes g
  have hsplit : splitOnColon (hexEncode ct ++ ':' :: hexEncode (challengeIV g)) =
      [hexEncode ct, hexEncode (challengeIV g)] := by
    rw [splitOnColon_sep _ _ (colon_not_mem_hexEncode hctB),
      splitOnColon_no_colon _ (colon_not_mem_hexEncode hivB)]
  have hdec : aesDecrypt D (challengeKey g) (challengeIV g) ct =
      some (strToBytes (natToChars t)) :=
    aes_roundtrip hC (challengeKey_length g) (challengeIV_length g)
      (challengeKey_bytes g) hivB (strToBytes_natToChars_bytes t) haes
  subst hr
  show decodeTimestamp D (hexEncode ct ++ ':' :: hexEncode (challengeIV g))
    (challengeKey g) = .ok t
  rw [decode_of_split2 D _ _ hsplit]
  simp only [hexDecode_hexEncode hivB, hexDecode_hexEncode hctB, hdec,
    bytesToChars_strToBytes, parse_natToChars]

/-- Claim C3 (amended): `createChallenge` fails exactly when the hex-encoded
ciphertext submitted to the encrypted-part codec does not reach exactly 32
characters; the IV cast and the cipher call itself never fail, so this is the
only reachable error branch — but it is reachable, for every timestamp of 16
or more decimal digits, even with correct 16-byte draws. -/
theorem c3_fail_iff_encrypted_part_invalid (E D : List Nat → List Nat → List Nat)
    (hC : CipherOK E D) (t : Nat) (g : RandomGenerator) :
    (createChallenge E t g).isOk = false ↔
      (challengeCipherHex E t g).length ≠ 32 := by
  rcases haes : aesEncrypt E (challengeKey g) (challengeIV g)
      (strToBytes (natToChars t)) with _ | ct
  · rw [aesEncrypt_challenge_some] at haes
    simp at haes
  · rw [challengeCipherHex_eq haes, hexEncode_length]
    have hiff := createChallenge_ok_iff hC t g
    have hct := (challenge_ct_props hC haes).2
    rw [← Bool.not_eq_true, hiff]
    omega

/-- Claim C4: `putChallenge` is only callable on the empty park (enforced by
its parameter type) and yields a challenged record carrying the supplied
encoded timestamp unchanged; `putSolution` is only callable on a challenged
record and yields a solved record carrying the original encoded timestamp
forward plus the supplied timestamp and secret key verbatim, with no
recomputation and no validation. -/
theorem c4_state_transitions (et : List Char) (park : EmptyPark) (t : Int)
    (k : List Char) (p : ParkWithChallenge) :
    (putChallenge et park).encodedTimestamp = et ∧
    (putSolution t k p).encodedTimestamp = p.encodedTimestamp ∧
    (putSolution t k p).timestamp = t ∧
    (putSolution t k p).secretKey = k :=
  ⟨rfl, rfl, rfl, rfl⟩

/-- Claim C5 (amended): a solved record produced by `putSolution` carries the
supplied timestamp verbatim, so its timestamp is non-negative exactly when
the supplied timestamp is; `putSolution` itself enforces no lower bound
(see the counterexample with a negative supplied timestamp). -/
theorem c5_solved_timestamp_iff (t : Int) (k : List Char)
    (p : ParkWithChallenge) :
    (putSolution t k p).timestamp = t ∧
    (0 ≤ (putSolution t k p).timestamp ↔ 0 ≤ t) :=
  ⟨rfl, Iff.rfl⟩

/-- Claim C6: the strict parser rejects "007", "-5", "5.0" and "abc",
accepts "0" and "123456789", and in general accepts a string with value `n`
exactly when the string is the canonical decimal serialization of the
non-negative integer `n`. -/
theorem c6_parser_rejects_accepts :
    (parseNonNegativeInteger ['0', '0', '7']).isOk = false ∧
    (parseNonNegativeInteger ['-', '5']).isOk = false ∧
    (parseNonNegativeInteger ['5', '.', '0']).isOk = false ∧
    (parseNonNegativeInteger ['a', 'b', 'c']).isOk = false ∧
    parseNonNegativeInteger ['0'] = .ok 0 ∧
    parseNonNegativeInteger ['1', '2', '3', '4', '5', '6', '7', '8', '9'] =
      .ok 123456789 ∧
    ∀ (s : List Char) (n : Nat),
      parseNonNegativeInteger s = .ok n ↔ s = natToChars n := by
  refine ⟨by decide, by decide, by decide, by decide, rfl, rfl, ?_⟩
  intro s n
  constructor
  · exact parse_ok_canonical
  · rintro rfl
    exact parse_natToChars n

/-- Claim C7: whenever `createChallenge` returns a result, the encoded
timestamp contains exactly one colon, and the part before it and the part
after it are each exactly 32 lowercase-hexadecimal characters. -/
theorem c7_encoded_shape (E D : List Nat → List Nat → List Nat)
    (hC : CipherOK E D) (t : Nat) (g g' : RandomGenerator) (r : ChallengeResult)
    (h : createChallenge E t g = .ok (r, g')) :
    r.encodedTimestamp.count ':' = 1 ∧
    ∃ a b, r.encodedTimestamp = a ++ ':' :: b ∧ a.length = 32 ∧ b.length = 32 ∧
      (∀ c ∈ a, isLowerHexChar c) ∧ (∀ c ∈ b, isLowerHexChar c) := by
  obtain ⟨ct, haes, h32, hr, hg⟩ := createChallenge_ok_inv h
  have hctB : isBytes ct := (challenge_ct_props hC haes).1
  have hivB : isBytes (challengeIV g) := challengeIV_bytes g
  subst hr
  constructor
  · show (hexEncode ct ++ ':' :: hexEncode (challengeIV g)).count ':' = 1
    rw [List.count_append, List.count_cons]
    have h1 : (hexEncode ct).count ':' = 0 :=
      List.count_eq_zero.mpr (colon_not_mem_hexEncode hctB)
    have h2 : (hexEncode (challengeIV g)).count ':' = 0 :=
      List.count_eq_zero.mpr (colon_not_mem_hexEncode hivB)
    simp [h1, h2]
  · exact ⟨hexEncode ct, hexEncode (challengeIV g), rfl, h32,
      by rw [hexEncode_length, challengeIV_length],
      mem_hexEncode hctB, mem_hexEncode hivB⟩

/-- Claim C8: whenever `createChallenge` returns a result, the raw secret key
is exactly the 16 generator draws taken before the IV draws, each truncated
to a single byte; in particular it is a 16-entry buffer of byte values. -/
theorem c8_secret_key_bytes (E : List Nat → List Nat → List Nat) (t : Nat)
    (g g' : RandomGenerator) (r : ChallengeResult)
    (h : createChallenge E t g = .ok (r, g')) :
    r.secretKey = (randN 16 g).1.map toByte ∧ r.secretKey.length = 16 ∧
      isBytes r.secretKey := by
  obtain ⟨ct, haes, h32, hr, hg⟩ := createChallenge_ok_inv h
  subst hr
  exact ⟨rfl, challengeKey_length g, challengeKey_bytes g⟩

/-- Claim C9: `createChallenge` is deterministic — two runs with the same
timestamp and the same generator state produce the same encoded timestamp,
the same secret key and the same advanced generator state; the generator
advancement returned as the next state is the only state effect, since the
embedding of the codec is a pure function of `(t, g)`. -/
theorem c9_deterministic (E : List Nat → List Nat → List Nat) (t : Nat)
    (g g1 g2 : RandomGenerator) (r1 r2 : ChallengeResult)
    (h1 : createChallenge E t g = .ok (r1, g1))
    (h2 : createChallenge E t g = .ok (r2, g2)) :
    r1.encodedTimestamp = r2.encodedTimestamp ∧
    r1.secretKey = r2.secretKey ∧ g1 = g2 := by
  rw [h1] at h2
  simp only [Except.ok.injEq, Prod.mk.injEq] at h2
  rw [h2.1, h2.2]
  exact ⟨rfl, rfl, rfl⟩

/-- Claim C10: the success of `createChallenge` depends on the length of the
timestamp's decimal string, not on the random draws: a string of at most 15
characters (one AES block after PKCS#7 padding) guarantees success, and a
string of 16 or more characters makes the ciphertext hex-encode to exactly
64 characters, so the encrypted-part validation throws and `createChallenge`
fails even with correct 16-byte draws.  The failure part is stated for
decimal strings of at most 31 characters, which covers every string the
program can submit: JS number formatting switches to exponential notation at
10^21 and never emits a decimal integer string longer than 22 characters. -/
theorem c10_outcome_by_decimal_length (E D : List Nat → List Nat → List Nat)
    (hC : CipherOK E D) (t : Nat) (g : RandomGenerator) :
    ((natToChars t).length ≤ 15 → (createChallenge E t g).isOk = true) ∧
    (16 ≤ (natToChars t).length → (natToChars t).length ≤ 31 →
      (challengeCipherHex E t g).length = 64 ∧
      (createChallenge E t g).isOk = false) := by
  constructor
  · intro h15
    exact (createChallenge_ok_iff hC t g).mpr h15
  · intro h16 h31
    rcases haes : aesEncrypt E (challengeKey g) (challengeIV g)
        (strToBytes (natToChars t)) with _ | ct
    · rw [aesEncrypt_challenge_some] at haes
      simp at haes
    · have hct := (challenge_ct_props hC haes).2
      constructor
      · rw [challengeCipherHex_eq haes, hexEncode_length]
        omega
      · have hiff := createChallenge_ok_iff hC t g
        rcases hok : (createChallenge E t g).isOk with _ | _
        · rfl
        · exact absurd (hiff.mp hok) (by omega)

/-! ### Concrete runs: counterexamples and witnesses -/

/-- Ciphertext hex part of `createChallenge xorCipher 3 g0`. -/
def sampleCipherHexPart : List Char := hexEncode (35 :: List.replicate 15 31)

/-- IV hex part of `createChallenge xorCipher 3 g0`. -/
def sampleIVHex : List Char :=
  hexEncode ((List.range 16).map (fun i => i + 16))

/-- Encoded timestamp produced by `createChallenge xorCipher 3 g0`. -/
def sampleEncodedTimestamp : List Char :=
  sampleCipherHexPart ++ ':' :: sampleIVHex

/-- Secret key produced by `createChallenge xorCipher 3 g0`. -/
def sampleSecretKey : List Nat := (List.range 16).map (fun i => i)

/-- Challenge record produced by `createChallenge xorCipher 3 g0`. -/
def sampleResult : ChallengeResult := ⟨sampleEncodedTimestamp, sampleSecretKey⟩

/-- Generator state returned by `createChallenge xorCipher 3 g0`
(the stream advanced past the 32 consumed draws). -/
def sampleGen : RandomGenerator := ⟨fun i => (i : Int), 32⟩

/-- Claim C1 counterexample: at `t = 10^15` (a canonically representable
non-negative integer of 16 decimal digits) and the concrete generator `g0`,
`createChallenge` throws, so the round-trip expression of the claim errors
instead of yielding `t`; the claim as universally stated is false. -/
theorem c1_counterexample :
    (createChallenge xorCipher 1000000000000000 g0).isOk = false := rfl

/-- Claim C1 witness: the amended round trip at `t = 3` on `g0`. -/
theorem c1_roundtrip_on_success_witness :
    decodeTimestamp xorCipher sampleEncodedTimestamp sampleSecretKey = .ok 3 :=
  c1_roundtrip_on_success xorCipher xorCipher cipherOK_xor 3 g0 sampleGen
    sampleResult rfl

/-- Claim C2 witness: the error characterization at a concrete well-shaped
encoded timestamp (all-zero hex parts) and an all-zero 16-byte key. -/
theorem c2_decode_error_iff_witness :
    ((decodeTimestamp xorCipher
        (List.replicate 32 '0' ++ ':' :: List.replicate 32 '0')
        (List.replicate 16 0)).isOk = false ↔
      ((splitOnColon (List.replicate 32 '0' ++ ':' ::
          List.replicate 32 '0')).length ≠ 2 ∨
        ∃ e iv rest, splitOnColon (List.replicate 32 '0' ++ ':' ::
            List.replicate 32 '0') = e :: iv :: rest ∧
          (hexDecode iv = none ∨ ∃ ivb, hexDecode iv = some ivb ∧
            (hexDecode e = none ∨ ∃ ct, hexDecode e = some ct ∧
              (aesDecrypt xorCipher (List.replicate 16 0) ivb ct = none ∨
                ∃ pt, aesDecrypt xorCipher (List.replicate 16 0) ivb ct =
                    some pt ∧
                  (parseNonNegativeInteger (bytesToChars pt)).isOk =
                    false))))) :=
  c2_decode_error_iff xorCipher (List.replicate 16 0) (List.replicate 32 '0')
    (List.replicate 32 '0') (by decide) (by decide)

/-- Claim C3 counterexample: at `t = 10^15` on `g0` both random draws are
correct 16-byte draws whose hex encodings reach exactly 32 characters, yet
`createChallenge` fails (the ciphertext hex is 64 characters), so failure is
not restricted to invalid random draws and the error branch is reachable. -/
theorem c3_counterexample :
    (createChallenge xorCipher 1000000000000000 g0).isOk = false ∧
    (hexEncode (challengeKey g0)).length = 32 ∧
    (hexEncode (challengeIV g0)).length = 32 ∧
    (challengeCipherHex xorCipher 1000000000000000 g0).length = 64 :=
  ⟨rfl, rfl, rfl, rfl⟩

/-- Claim C3 witness: the amended failure characterization at `t = 3`, `g0`. -/
theorem c3_fail_iff_encrypted_part_invalid_witness :
    ((createChallenge xorCipher 3 g0).isOk = false ↔
      (challengeCipherHex xorCipher 3 g0).length ≠ 32) :=
  c3_fail_iff_encrypted_part_invalid xorCipher xorCipher cipherOK_xor 3 g0

/-- Claim C5 counterexample: `putSolution` applied with the supplied
timestamp `-1` to a challenged record yields a solved record whose timestamp
is negative, so not every reachable solved record has timestamp at least 0. -/
theorem c5_counterexample : ¬(0 ≤ (putSolution (-1) [] ⟨[]⟩).timestamp) := by
  decide

/-- Claim C7 witness: the shape invariant on the concrete run at `t = 3`,
`g0` with the xor block cipher. -/
theorem c7_encoded_shape_witness :
    sampleEncodedTimestamp.count ':' = 1 ∧
    ∃ a b, sampleEncodedTimestamp = a ++ ':' :: b ∧ a.length = 32 ∧
      b.length = 32 ∧ (∀ c ∈ a, isLowerHexChar c) ∧
      (∀ c ∈ b, isLowerHexChar c) :=
  c7_encoded_shape xorCipher xorCipher cipherOK_xor 3 g0 sampleGen
    sampleResult rfl

/-- Claim C8 witness: the key invariant on the concrete run at `t = 3`, `g0`:
the key is the first 16 draws of the stream 0,1,2,... truncated to bytes. -/
theorem c8_secret_key_bytes_witness :
    sampleSecretKey = (randN 16 g0).1.map toByte ∧
    sampleSecretKey.length = 16 ∧ isBytes sampleSecretKey :=
  c8_secret_key_bytes xorCipher 3 g0 sampleGen sampleResult rfl

/-- Claim C9 witness: determinism applied to two (identical) concrete runs
at `t = 3`, `g0`. -/
theorem c9_deterministic_witness :
    sampleResult.encodedTimestamp = sampleResult.encodedTimestamp ∧
    sampleResult.secretKey = sampleResult.secretKey ∧
    sampleGen = sampleGen :=
  c9_deterministic xorCipher 3 g0 sampleGen sampleGen sampleResult
    sampleResult rfl rfl

/-- Claim C10 witness: the characterization at `t = 10^15` (a 16-character
decimal string) on `g0` — there the failure branch of the statement fires. -/
theorem c10_outcome_by_decimal_length_witness :
    (((natToChars 1000000000000000).length ≤ 15 →
      (createChallenge xorCipher 1000000000000000 g0).isOk = true) ∧
    (16 ≤ (natToChars 1000000000000000).length →
      (natToChars 1000000000000000).length ≤ 31 →
      (challengeCipherHex xorCipher 1000000000000000 g0).length = 64 ∧
      (createChallenge xorCipher 1000000000000000 g0).isOk = false)) :=
  c10_outcome_by_decimal_length xorCipher xorCipher cipherOK_xor
    1000000000000000 g0
